import Mathlib

/-
Verification of the MPL relational-model engine (modallogic).

The definitions below are a shallow embedding of the JavaScript source
`MPL.js` (the version with the two edge sets `_preorders` / `_relations`).
JavaScript arrays of index pairs become `List (Nat × Nat)`; a truth
assignment (an object storing only `true` entries) becomes the list of its
keys in insertion order; the tombstone `null` left by `removeState` becomes
`none`.  A crucial point of the source is that `updateTransitiveClosure`
lets the chosen primary edge array and the derived closure field alias the
same array object: the closure pairs are pushed into the primary array in
place and the derived field is then assigned that very array.  The
functional embedding reproduces the observable outcome by setting both
fields to the closed list.
-/

namespace MPL

/-- A live state of the model: the truth assignment stores exactly the names
of the variables that are true, in insertion order.  (The source also puts
write-only `preorders` / `relations` fields on each state object; no code
ever reads them, so they are omitted here.) -/
structure StateRec where
  assignment : List String
deriving DecidableEq, Repr

/-- The private fields captured by the `Model` constructor. -/
structure Model where
  states : List (Option StateRec)
  preorders : List (Nat × Nat)
  relations : List (Nat × Nat)
  transPreorders : List (Nat × Nat)
  transRelations : List (Nat × Nat)
  preordersToEval : List (Nat × Nat)
  relationsToEval : List (Nat × Nat)
  rules : List Bool
deriving DecidableEq, Repr

/-- A fresh model, as built by the `Model` constructor: everything empty and
the three rule flags off. -/
def Model.init : Model :=
  { states := [], preorders := [], relations := [],
    transPreorders := [], transRelations := [],
    preordersToEval := [], relationsToEval := [],
    rules := [false, false, false] }

/-- `_states[i]`, with both `null` and an out-of-range access read as a dead
slot (`none`). -/
def Model.state? (m : Model) (i : Nat) : Option StateRec :=
  m.states.getD i none

/-- `updateRule`: toggles one of the three rule flags. -/
def Model.updateRule (m : Model) (i : Nat) : Model :=
  { m with rules := m.rules.set i (!(m.rules.getD i false)) }

/-- `listSearch`: membership test for an index pair in a pair list. -/
def listSearch (l : List (Nat × Nat)) (s : Nat × Nat) : Bool :=
  l.any fun e => e.1 == s.1 && e.2 == s.2

/-- `listRemove`: removes every copy of an index pair from a pair list. -/
def listRemove (l : List (Nat × Nat)) (s : Nat × Nat) : List (Nat × Nat) :=
  l.filter fun e => !(e.1 == s.1 && e.2 == s.2)

/-- `generateReflexive`: the pair `(i, i)` for every state slot index. -/
def Model.generateReflexive (m : Model) : List (Nat × Nat) :=
  (List.range m.states.length).map fun i => (i, i)

/-- `unify`: flattens a list of pair lists into one duplicate-free list,
keeping first occurrences in order. -/
def unify (ls : List (List (Nat × Nat))) : List (Nat × Nat) :=
  ls.foldl
    (fun out l => l.foldl (fun out e => if listSearch out e then out else out ++ [e]) out)
    []

/-- `checkForwardConfluence`: for every `i`, `j`, `k` over the state slots,
if `(i,k)` is a preorder pair and `(i,j)` a relation pair then some slot `w`
has `(j,w)` a preorder pair and `(k,w)` a relation pair. -/
def Model.checkForwardConfluence (m : Model) : Bool :=
  (List.range m.states.length).all fun i =>
    (List.range m.states.length).all fun j =>
      (List.range m.states.length).all fun k =>
        if listSearch m.preorders (i, k) && listSearch m.relations (i, j) then
          (List.range m.states.length).any fun w =>
            listSearch m.preorders (j, w) && listSearch m.relations (k, w)
        else true

/-- Body of the innermost (`j`) loop of `updateTransitiveClosure`: push
`(i, j)` when `(i, k)` and `(k, j)` are present and `(i, j)` is not. -/
def fwStep (i k : Nat) (rel : List (Nat × Nat)) (j : Nat) : List (Nat × Nat) :=
  if listSearch rel (i, k) && listSearch rel (k, j) && !listSearch rel (i, j) then
    rel ++ [(i, j)]
  else rel

/-- The `j` loop of `updateTransitiveClosure`. -/
def fwLoopJ (l i k : Nat) (rel : List (Nat × Nat)) : List (Nat × Nat) :=
  (List.range l).foldl (fwStep i k) rel

/-- The `i` loop of `updateTransitiveClosure`. -/
def fwLoopI (l k : Nat) (rel : List (Nat × Nat)) : List (Nat × Nat) :=
  (List.range l).foldl (fun r i => fwLoopJ l i k r) rel

/-- The full `k`-outermost Floyd-Warshall triple loop of
`updateTransitiveClosure`, growing the pair list in place. -/
def fwAll (l : Nat) (rel : List (Nat × Nat)) : List (Nat × Nat) :=
  (List.range l).foldl (fun r k => fwLoopI l k r) rel

/-- `updateTransitiveClosure(typeS)`: runs the triple loop over the chosen
primary edge array.  In the source `tempRelation` is the primary array
itself, so the pushes land in the primary set, and the final assignment
makes the derived closure field the same (closed) list. -/
def Model.updateTransitiveClosure (m : Model) (typeS : String) : Model :=
  let l := m.states.length
  let tempRelation := if typeS == "preorders" then m.preorders else m.relations
  let closed := fwAll l tempRelation
  if typeS == "preorders" then
    { m with preorders := closed, transPreorders := closed }
  else
    { m with relations := closed, transRelations := closed }

/-- `addTransition(source, target, type)`: fails on a dead endpoint; for
preorder edges fails unless every variable true at the source is true at the
target; otherwise pushes the pair unless already present and reruns the
preorder closure.  The returned boolean is the source's return value. -/
def Model.addTransition (m : Model) (source target : Nat) (type : String) :
    Bool × Model :=
  match m.state? source, m.state? target with
  | some sSt, some tSt =>
    if type == "preorders" && !(sSt.assignment.all fun e => tSt.assignment.contains e) then
      (false, m)
    else
      let successors := if type == "preorders" then m.preorders else m.relations
      let m1 :=
        if !listSearch successors (source, target) then
          if type == "preorders" then
            { m with preorders := m.preorders ++ [(source, target)] }
          else
            { m with relations := m.relations ++ [(source, target)] }
        else m
      (true, m1.updateTransitiveClosure "preorders")
  | _, _ => (false, m)

/-- `removeTransition(source, target, type)`: drops the pair from the chosen
primary set; only the preorder branch reruns the closure. -/
def Model.removeTransition (m : Model) (source target : Nat) (type : String) : Model :=
  if (m.state? source).isNone then m
  else if type == "preorders" then
    ({ m with preorders := listRemove m.preorders (source, target) }).updateTransitiveClosure
      "preorders"
  else { m with relations := listRemove m.relations (source, target) }

/-- Targets of the preorder pairs leaving `source` (body of
`getPreordersOf`). -/
def preordersOfList (m : Model) (source : Nat) : List Nat :=
  (m.preorders.filter fun e => e.1 == source).map fun e => e.2

/-- Sources of the preorder pairs entering `source` (body of
`getPastPreordersOf`). -/
def pastPreordersOfList (m : Model) (source : Nat) : List Nat :=
  (m.preorders.filter fun e => e.2 == source).map fun e => e.1

/-- Targets of the snapshot preorder pairs leaving `source` (body of
`getUsedPreordersOf`). -/
def usedPreordersOfList (m : Model) (source : Nat) : List Nat :=
  (m.preordersToEval.filter fun e => e.1 == source).map fun e => e.2

/-- Targets of the derived closure pairs leaving `source` (body of
`getTransPreordersOf`). -/
def transPreordersOfList (m : Model) (source : Nat) : List Nat :=
  (m.transPreorders.filter fun e => e.1 == source).map fun e => e.2

/-- Targets of the relation pairs leaving `source` (body of
`getRelationsOf`). -/
def relationsOfList (m : Model) (source : Nat) : List Nat :=
  (m.relations.filter fun e => e.1 == source).map fun e => e.2

/-- Targets of the snapshot relation pairs leaving `source` (body of
`getUsedRelationsOf`). -/
def usedRelationsOfList (m : Model) (source : Nat) : List Nat :=
  (m.relationsToEval.filter fun e => e.1 == source).map fun e => e.2

/-- `getPreordersOf`: `undefined` (`none`) on a dead slot. -/
def Model.getPreordersOf (m : Model) (source : Nat) : Option (List Nat) :=
  if (m.state? source).isNone then none else some (preordersOfList m source)

/-- `getPastPreordersOf`. -/
def Model.getPastPreordersOf (m : Model) (source : Nat) : Option (List Nat) :=
  if (m.state? source).isNone then none else some (pastPreordersOfList m source)

/-- `getUsedPreordersOf`. -/
def Model.getUsedPreordersOf (m : Model) (source : Nat) : Option (List Nat) :=
  if (m.state? source).isNone then none else some (usedPreordersOfList m source)

/-- `getTransPreordersOf`. -/
def Model.getTransPreordersOf (m : Model) (source : Nat) : Option (List Nat) :=
  if (m.state? source).isNone then none else some (transPreordersOfList m source)

/-- `getRelationsOf`. -/
def Model.getRelationsOf (m : Model) (source : Nat) : Option (List Nat) :=
  if (m.state? source).isNone then none else some (relationsOfList m source)

/-- `getUsedRelationsOf`. -/
def Model.getUsedRelationsOf (m : Model) (source : Nat) : Option (List Nat) :=
  if (m.state? source).isNone then none else some (usedRelationsOfList m source)

/-- `addState(assignment)`: keeps exactly the entries strictly equal to
`true`, pushes the new state, and pushes the reflexive preorder pair for the
new index.  The source function has no `return` statement, so a call
evaluates to `undefined`; the first component records that value. -/
def Model.addState (m : Model) (assignment : List (String × Bool)) :
    Option Nat × Model :=
  let processedAssignment := (assignment.filter fun kv => kv.2 == true).map fun kv => kv.1
  (none,
    { m with
      states := m.states ++ [some { assignment := processedAssignment }],
      preorders := m.preorders ++ [(m.states.length, m.states.length)] })

/-- `valuation(propvar, state)`: `!!_states[state].assignment[propvar]`.
The source throws on a dead slot; this total version answers `false` there
and is only ever applied to live slots in the theorems below. -/
def Model.valuation (m : Model) (propvar : String) (state : Nat) : Bool :=
  match m.state? state with
  | some st => st.assignment.contains propvar
  | none => false

/-- One step of the assignment-mutation loop of `editState`: value `true`
inserts the key (appending when new), value `false` deletes it. -/
def applyAssignEntry (acc : List String) (kv : String × Bool) : List String :=
  if kv.2 then (if acc.contains kv.1 then acc else acc ++ [kv.1])
  else acc.filter fun q => !(q == kv.1)

/-- The whole assignment-mutation loop of `editState`. -/
def applyAssign (orig : List String) (assignment : List (String × Bool)) : List String :=
  assignment.foldl applyAssignEntry orig

/-- `editState(state, assignment)`: fails on a dead slot; fails when a key
being set `true` is false at some preorder successor other than the state
itself; fails when a key being set `false` is true at some preorder
predecessor other than the state itself; otherwise mutates the stored
assignment. -/
def Model.editState (m : Model) (state : Nat) (assignment : List (String × Bool)) :
    Bool × Model :=
  match m.state? state with
  | none => (false, m)
  | some st =>
    let futures := preordersOfList m state
    if !(assignment.all fun kv =>
          if !kv.2 then true
          else futures.all fun f => f == state || m.valuation kv.1 f) then
      (false, m)
    else
      let pasts := pastPreordersOfList m state
      if !(assignment.all fun kv =>
            if kv.2 then true
            else pasts.all fun f => f == state || !(m.valuation kv.1 f)) then
        (false, m)
      else
        (true,
          { m with
            states := m.states.set state (some { assignment := applyAssign st.assignment assignment }) })

/-- `removeState(state)`: tombstones the slot and purges every primary edge
touching it.  The derived closure fields are not touched. -/
def Model.removeState (m : Model) (state : Nat) : Model :=
  if (m.state? state).isNone then m
  else
    { m with
      states := m.states.set state none,
      preorders := m.preorders.filter fun e => !(e.1 == state || e.2 == state),
      relations := m.relations.filter fun e => !(e.1 == state || e.2 == state) }

/-- `getStates()`: the assignment of each slot, `null` for tombstones. -/
def Model.getStates (m : Model) : List (Option (List String)) :=
  m.states.map fun s => s.map fun st => st.assignment

/-- `_pretruth()`: reruns both closures (merging each into its primary set),
snapshots the preorder closure for evaluation, builds the relation snapshot
(prepending nothing, appending the reflexive pairs when rule 0 is on), and
with rule 1 on reports failure of forward confluence as a diagnostic
string. -/
def Model.pretruth (m : Model) : String × Model :=
  let m1 := (m.updateTransitiveClosure "preorders").updateTransitiveClosure "relations"
  let m2 := { m1 with preordersToEval := m1.transPreorders }
  let relationsToUnify :=
    if m2.rules.getD 0 false then [m2.relations, m2.generateReflexive] else [m2.relations]
  let m3 := { m2 with relationsToEval := unify relationsToUnify }
  if m3.rules.getD 1 false && !m3.checkForwardConfluence then
    ("Confluence check failed", m3)
  else ("", m3)

/-- `getModelString()`: one record per slot — `A` then the comma-joined true
variable names, `P` then the comma-joined preorder targets, `R` then the
comma-joined relation targets, then `;`; a tombstone contributes a bare
`;`. -/
def Model.getModelString (m : Model) : String :=
  String.join ((List.range m.states.length).map fun i =>
    match m.states.getD i none with
    | some st =>
      "A" ++ String.intercalate "," st.assignment ++
      "P" ++ String.intercalate "," ((preordersOfList m i).map toString) ++
      "R" ++ String.intercalate "," ((relationsOfList m i).map toString) ++ ";"
    | none => ";")

/-- Regular expressions over characters, enough for the import grammar of
`loadFromModelString`; matching is by Brzozowski derivatives, which follows
the semantics of the source's anchored `RegExp.test`. -/
inductive Rx where
  | fail
  | eps
  | cls (p : Char → Bool)
  | cat (a b : Rx)
  | alt (a b : Rx)
  | star (a : Rx)

/-- Whether a regular expression accepts the empty string. -/
def Rx.nullable : Rx → Bool
  | .fail => false
  | .eps => true
  | .cls _ => false
  | .cat a b => a.nullable && b.nullable
  | .alt a b => a.nullable || b.nullable
  | .star _ => true

/-- Brzozowski derivative with respect to one character. -/
def Rx.deriv : Rx → Char → Rx
  | .fail, _ => .fail
  | .eps, _ => .fail
  | .cls p, c => if p c then .eps else .fail
  | .cat a b, c =>
    if a.nullable then .alt (.cat (a.deriv c) b) (b.deriv c) else .cat (a.deriv c) b
  | .alt a b, c => .alt (a.deriv c) (b.deriv c)
  | .star a, c => .cat (a.deriv c) (.star a)

/-- Whole-string matching by iterated derivatives. -/
def Rx.accepts (r : Rx) (s : List Char) : Bool :=
  (s.foldl Rx.deriv r).nullable

/-- Single-character regular expression. -/
def rxChar (c : Char) : Rx := .cls fun x => x == c

/-- `\w` — the word characters. -/
def rxWordChar : Rx := .cls fun c => c.isAlphanum || c == '_'

/-- `\d` — the digits. -/
def rxDigitChar : Rx := .cls Char.isDigit

/-- `r+`. -/
def rxPlus (r : Rx) : Rx := .cat r (.star r)

/-- `(?:A|A(?:\w+,)*\w+)` — the assignment segment of a record. -/
def rxSegA : Rx :=
  .alt (rxChar 'A')
    (.cat (rxChar 'A') (.cat (.star (.cat (rxPlus rxWordChar) (rxChar ','))) (rxPlus rxWordChar)))

/-- `(?:P|P(?:\d+,)*\d+)` — the preorder segment of a record. -/
def rxSegP : Rx :=
  .alt (rxChar 'P')
    (.cat (rxChar 'P') (.cat (.star (.cat (rxPlus rxDigitChar) (rxChar ','))) (rxPlus rxDigitChar)))

/-- `(?:R|R(?:\d+,)*\d+)` — the relation segment of a record. -/
def rxSegR : Rx :=
  .alt (rxChar 'R')
    (.cat (rxChar 'R') (.cat (.star (.cat (rxPlus rxDigitChar) (rxChar ','))) (rxPlus rxDigitChar)))

/-- `^(?:;|(?:A…)(?:P…)(?:R…);)+$` — the whole import grammar. -/
def rxModelString : Rx :=
  rxPlus (.alt (rxChar ';') (.cat rxSegA (.cat rxSegP (.cat rxSegR (rxChar ';')))))

/-- JS `split` on a one-character separator: every occurrence splits, and
empty segments are kept. -/
def splitOnChar (sep : Char) : List Char → List (List Char)
  | [] => [[]]
  | c :: cs =>
    if c == sep then [] :: splitOnChar sep cs
    else
      match splitOnChar sep cs with
      | [] => [[c]]
      | r :: rs => (c :: r) :: rs

/-- Index of the first occurrence of a character. -/
def idxOfChar (c : Char) : List Char → Option Nat
  | [] => none
  | x :: xs => if x == c then some 0 else (idxOfChar c xs).map fun n => n + 1

/-- Numeric value of a digit string — what JS unary plus computes on the
digit-only segments the import grammar admits. -/
def digitsVal (cs : List Char) : Nat :=
  cs.foldl (fun n c => n * 10 + (c.toNat - 48)) 0

/-- The greedy decomposition performed by `record.match(/A(.*)P(.*)R(.*)/)`
on the text after the leading `A`: the `P` is the last one followed by some
`R`, and within the remainder the `R` is the last one.  Implemented by
taking the last `R` overall and then the last `P` before it. -/
def decompPR (rest : List Char) : Option (List Char × List Char × List Char) :=
  match idxOfChar 'R' rest.reverse with
  | none => none
  | some rFromEnd =>
    let rIdx := rest.length - 1 - rFromEnd
    let beforeR := rest.take rIdx
    match idxOfChar 'P' beforeR.reverse with
    | none => none
    | some pFromEnd =>
      let pIdx := beforeR.length - 1 - pFromEnd
      some (rest.take pIdx, (rest.take rIdx).drop (pIdx + 1), rest.drop (rIdx + 1))

/-- Restores one non-empty record: assignment names from the characters of
the first comma-separated chunk of the `A` segment, plus the parsed `P` and
`R` target lists. -/
def parseRecord (record : List Char) : Option (List String × List Nat × List Nat) :=
  match record with
  | 'A' :: rest =>
    match decompPR rest with
    | none => none
    | some (g1, g2, g3) =>
      let aChunks := if g1.isEmpty then [] else splitOnChar ',' g1
      let aFirst := (if aChunks.isEmpty then [[]] else aChunks).headD []
      let assignment := aFirst.foldl
        (fun acc c => if acc.contains (String.mk [c]) then acc else acc ++ [String.mk [c]]) []
      let pNums := (if g2.isEmpty then [] else splitOnChar ',' g2).map digitsVal
      let rNums := (if g3.isEmpty then [] else splitOnChar ',' g3).map digitsVal
      some (assignment, pNums, rNums)
  | _ => none

/-- `loadFromModelString(modelString)`: rejected wholesale unless the string
matches the import grammar; otherwise the state array is rebuilt from the
records (the primary edge sets are *not* cleared), a reflexive preorder pair
is attempted for every slot, and the listed preorder and relation pairs are
re-added through `addTransition`. -/
def Model.loadFromModelString (m : Model) (modelString : String) : Model :=
  if !(rxModelString.accepts modelString.data) then m
  else
    let inputStates := (splitOnChar ';' modelString.data).dropLast
    let parsed := inputStates.map parseRecord
    let m1 := { m with states := parsed.map fun o => o.map fun t => { assignment := t.1 } }
    let m2 :=
      (List.range parsed.length).foldl
        (fun acc src =>
          let acc1 := (acc.addTransition src src "preorders").2
          match parsed.getD src none with
          | none => acc1
          | some t => t.2.1.foldl (fun a tgt => (a.addTransition src tgt "preorders").2) acc1)
        m1
    (List.range parsed.length).foldl
      (fun acc src =>
        match parsed.getD src none with
        | none => acc
        | some t => t.2.2.foldl (fun a tgt => (a.addTransition src tgt "relations").2) acc)
      m2

end MPL

namespace MPL

/-- The wff tree: the eight formula shapes plus the internal falsum. -/
inductive Wff where
  | bot
  | prop (p : String)
  | neg (a : Wff)
  | nec (a : Wff)
  | poss (a : Wff)
  | conj (a b : Wff)
  | disj (a b : Wff)
  | impl (a b : Wff)
  | equi (a b : Wff)
deriving DecidableEq, Repr

/-- Termination measure for `truthEval`: the negation case recurses on
`impl a bot`, which this measure makes smaller than `neg a`. -/
def wffSize : Wff → Nat
  | .bot => 0
  | .prop _ => 0
  | .neg a => wffSize a + 2
  | .nec a => wffSize a + 1
  | .poss a => wffSize a + 1
  | .conj a b => wffSize a + wffSize b + 1
  | .disj a b => wffSize a + wffSize b + 1
  | .impl a b => wffSize a + wffSize b + 1
  | .equi a b => wffSize a + wffSize b + 1

/-- `_truth(model, state, json)`: recursive evaluation.  Negation runs
`impl a bot` over the derived preorder closure successors; necessity runs
over snapshot preorder successors then snapshot relation successors;
possibility does the same with an inner existential unless rule 2 is on, in
which case it consults only the snapshot relation at the current state. -/
def truthEval (m : Model) : Nat → Wff → Bool
  | _, .bot => false
  | state, .prop p => m.valuation p state
  | state, .neg a =>
    (transPreordersOfList m state).all fun world => truthEval m world (.impl a .bot)
  | state, .conj a b => truthEval m state a && truthEval m state b
  | state, .disj a b => truthEval m state a || truthEval m state b
  | state, .impl a b => !(truthEval m state a) || truthEval m state b
  | state, .equi a b => truthEval m state a == truthEval m state b
  | state, .nec a =>
    (usedPreordersOfList m state).all fun world1 =>
      (usedRelationsOfList m world1).all fun world2 => truthEval m world2 a
  | state, .poss a =>
    if !(m.rules.getD 2 false) then
      (usedPreordersOfList m state).all fun world1 =>
        (usedRelationsOfList m world1).any fun world2 => truthEval m world2 a
    else
      (usedRelationsOfList m state).any fun world1 => truthEval m world1 a
termination_by _ w => wffSize w
decreasing_by all_goals simp [wffSize] <;> omega

/-- `truth(model, state, wff)`: the public entry point; throws (`none`) when
the slot is dead, otherwise runs `_truth` without any preparation step. -/
def truth (m : Model) (state : Nat) (wff : Wff) : Option Bool :=
  if (m.getStates.getD state none).isSome then some (truthEval m state wff) else none

/-- A nonempty chain of pairs from `i` to `j`: the reference notion of
"transitively reachable" against which the triple loop is measured. -/
inductive Chain (rel : List (Nat × Nat)) : Nat → Nat → Prop
  | base {i j : Nat} : (i, j) ∈ rel → Chain rel i j
  | step {i k j : Nat} : (i, k) ∈ rel → Chain rel k j → Chain rel i j

/-- A nonempty chain whose intermediate nodes are all below the bound `b`. -/
inductive ChainBdd (rel : List (Nat × Nat)) (b : Nat) : Nat → Nat → Prop
  | base {i j : Nat} : (i, j) ∈ rel → ChainBdd rel b i j
  | step {i k j : Nat} : (i, k) ∈ rel → k < b → ChainBdd rel b k j → ChainBdd rel b i j

/-- Every pair in the list has both endpoints below `l` — true of every pair
list the program builds, since `addTransition` refuses dead endpoints. -/
def BoundedPairs (rel : List (Nat × Nat)) (l : Nat) : Prop :=
  ∀ p ∈ rel, p.1 < l ∧ p.2 < l

/-- The models producible by the public mutation interface without ever
running the evaluation preparation step `_pretruth`. -/
inductive Built : Model → Prop
  | init : Built Model.init
  | addState (m : Model) (a : List (String × Bool)) : Built m → Built (m.addState a).2
  | addTransition (m : Model) (s t : Nat) (ty : String) :
      Built m → Built (m.addTransition s t ty).2
  | removeTransition (m : Model) (s t : Nat) (ty : String) :
      Built m → Built (m.removeTransition s t ty)
  | removeState (m : Model) (s : Nat) : Built m → Built (m.removeState s)
  | editState (m : Model) (s : Nat) (a : List (String × Bool)) :
      Built m → Built (m.editState s a).2
  | updateRule (m : Model) (i : Nat) : Built m → Built (m.updateRule i)
  | load (m : Model) (str : String) : Built m → Built (m.loadFromModelString str)

/-- The possibility clause as the spec's sentence words it — an existential
over the snapshot preorder successors — written here only to compare with
the source's evaluator, which quantifies that layer universally. -/
def specPossExists (m : Model) (s : Nat) (a : Wff) : Bool :=
  (usedPreordersOfList m s).any fun w =>
    (usedRelationsOfList m w).any fun w1 => truthEval m w1 a

/-- One live state with an empty assignment whose reflexive preorder
self-loop has been removed, after the preparation step: its evaluation
snapshots are both empty. -/
def C1M : Model :=
  (((Model.init.addState []).2.removeTransition 0 0 "preorders").pretruth).2

/-- One live state at which both `p` and `q` are true. -/
def C2M : Model := (Model.init.addState [("p", true), ("q", true)]).2

/-- `C2M` after a model-string round trip. -/
def C2M2 : Model := C2M.loadFromModelString C2M.getModelString

/-- Three empty states with explicitly inserted preorder edges
`(0,0),(1,1),(2,2)` (the `addState` self-loops) and `(0,1),(1,2)`. -/
def C3M : Model :=
  (((((Model.init.addState []).2.addState []).2.addState []).2.addTransition
        0 1 "preorders").2.addTransition 1 2 "preorders").2

/-- A three-state model whose preorder list is not transitively closed, the
state reached inside `addTransition 1 2` on `C3M` just before its closure
call. -/
def C3prev : Model :=
  { states := [some { assignment := [] }, some { assignment := [] }, some { assignment := [] }],
    preorders := [(0, 0), (1, 1), (2, 2), (0, 1), (1, 2)],
    relations := [], transPreorders := [], transRelations := [],
    preordersToEval := [], relationsToEval := [],
    rules := [false, false, false] }

/-- Two live states, `p` true at both and `q` true only at state 1, with the
preorder edges `(0,0),(1,1),(0,1)` (already transitively closed). -/
def C4M : Model :=
  { states := [some { assignment := ["p"] }, some { assignment := ["p", "q"] }],
    preorders := [(0, 0), (1, 1), (0, 1)],
    relations := [], transPreorders := [(0, 0), (1, 1), (0, 1)], transRelations := [],
    preordersToEval := [], relationsToEval := [],
    rules := [false, false, false] }

/-- The spec's closure example: three states, preorder edges
`(0,1),(1,2)` plus the enforced reflexive self-loops. -/
def C8M : Model :=
  { states := [some { assignment := [] }, some { assignment := [] }, some { assignment := [] }],
    preorders := [(0, 0), (1, 1), (2, 2), (0, 1), (1, 2)],
    relations := [], transPreorders := [], transRelations := [],
    preordersToEval := [], relationsToEval := [],
    rules := [false, false, false] }

/-- One live state, then a relation self-loop added — `transRelations` is
left stale (empty). -/
def C9Ma : Model := ((Model.init.addState []).2.addTransition 0 0 "relations").2

/-- Two live states with preorder edge `(0,1)` merged into the closure, then
state 1 removed — the closure keeps pairs naming the dead state. -/
def C9Mb : Model :=
  ((((Model.init.addState []).2.addState []).2.addTransition 0 1 "preorders").2.removeState 1)

/-- One live state with empty assignment, used to witness vacuous truth. -/
def C7M : Model := (Model.init.addState []).2

end MPL

namespace MPL

lemma listSearch_iff (l : List (Nat × Nat)) (a b : Nat) :
    listSearch l (a, b) = true ↔ (a, b) ∈ l := by
  simp only [listSearch, List.any_eq_true, Bool.and_eq_true, beq_iff_eq]
  constructor
  · rintro ⟨⟨x, y⟩, hm, h1, h2⟩
    simp only at h1 h2
    subst h1; subst h2; exact hm
  · intro hm
    exact ⟨(a, b), hm, rfl, rfl⟩

lemma mem_pairTargets (l : List (Nat × Nat)) (i j : Nat) :
    (j ∈ (l.filter fun e => e.1 == i).map fun e => e.2) ↔ (i, j) ∈ l := by
  simp only [List.mem_map, List.mem_filter, beq_iff_eq]
  constructor
  · rintro ⟨⟨x, y⟩, ⟨hm, hx⟩, hy⟩
    simp only at hx hy
    subst hx; subst hy; exact hm
  · intro hm
    exact ⟨(i, j), ⟨hm, rfl⟩, rfl⟩

lemma mem_pairSources (l : List (Nat × Nat)) (i j : Nat) :
    (j ∈ (l.filter fun e => e.2 == i).map fun e => e.1) ↔ (j, i) ∈ l := by
  simp only [List.mem_map, List.mem_filter, beq_iff_eq]
  constructor
  · rintro ⟨⟨x, y⟩, ⟨hm, hx⟩, hy⟩
    simp only at hx hy
    subst hx; subst hy; exact hm
  · intro hm
    exact ⟨(j, i), ⟨hm, rfl⟩, rfl⟩

lemma ite_cond_imp (c : Prop) [Decidable c] (x : Bool) :
    (if c then x else true) = true ↔ (c → x = true) := by
  by_cases h : c <;> simp [h]

/-- C5: `checkForwardConfluence` returns true exactly when every triple of
state indices `i, j, k` with `(i,k)` a preorder pair and `(i,j)` a relation
pair admits some index `w` with `(j,w)` a preorder pair and `(k,w)` a
relation pair.  The check is embedded as a pure function because the source
assigns to nothing while computing it. -/
theorem forward_confluence_iff (m : Model) :
    m.checkForwardConfluence = true ↔
      ∀ i < m.states.length, ∀ j < m.states.length, ∀ k < m.states.length,
        (i, k) ∈ m.preorders → (i, j) ∈ m.relations →
          ∃ w < m.states.length, (j, w) ∈ m.preorders ∧ (k, w) ∈ m.relations := by
  unfold Model.checkForwardConfluence
  simp only [List.all_eq_true, List.mem_range, ite_cond_imp, Bool.and_eq_true,
    List.any_eq_true, listSearch_iff]
  constructor
  · intro h i hi j hj k hk h1 h2
    obtain ⟨w, hw, hw1, hw2⟩ := h i hi j hj k hk ⟨h1, h2⟩
    exact ⟨w, hw, hw1, hw2⟩
  · rintro h i hi j hj k hk ⟨h1, h2⟩
    obtain ⟨w, hw, hw1, hw2⟩ := h i hi j hj k hk h1 h2
    exact ⟨w, hw, hw1, hw2⟩

end MPL

namespace MPL

lemma listSearch_false_iff (l : List (Nat × Nat)) (a b : Nat) :
    listSearch l (a, b) = false ↔ (a, b) ∉ l := by
  rw [← Bool.not_eq_true, not_iff_not]
  exact listSearch_iff l a b

lemma foldlPres {α β : Type} {f : β → α → β} {P : β → Prop}
    (hf : ∀ b a, P b → P (f b a)) :
    ∀ (xs : List α) (b : β), P b → P (xs.foldl f b) := by
  intro xs
  induction xs with
  | nil => exact fun b h => h
  | cons a as ih => exact fun b h => ih _ (hf _ _ h)

lemma mem_fwStep_of_mem {rel : List (Nat × Nat)} {i k j : Nat} {p : Nat × Nat}
    (h : p ∈ rel) : p ∈ fwStep i k rel j := by
  unfold fwStep
  split
  · exact List.mem_append_left _ h
  · exact h

lemma mem_fwLoopJ_of_mem {rel : List (Nat × Nat)} {l i k : Nat} {p : Nat × Nat}
    (h : p ∈ rel) : p ∈ fwLoopJ l i k rel := by
  unfold fwLoopJ
  exact foldlPres (P := fun r => p ∈ r) (fun b a hb => mem_fwStep_of_mem hb) _ _ h

lemma mem_fwLoopI_of_mem {rel : List (Nat × Nat)} {l k : Nat} {p : Nat × Nat}
    (h : p ∈ rel) : p ∈ fwLoopI l k rel := by
  unfold fwLoopI
  exact foldlPres (P := fun r => p ∈ r) (fun b a hb => mem_fwLoopJ_of_mem hb) _ _ h

lemma mem_fwAll_of_mem {rel : List (Nat × Nat)} {l : Nat} {p : Nat × Nat}
    (h : p ∈ rel) : p ∈ fwAll l rel := by
  unfold fwAll
  exact foldlPres (P := fun r => p ∈ r) (fun b a hb => mem_fwLoopI_of_mem hb) _ _ h

lemma mem_fwStep_self {rel : List (Nat × Nat)} {i k j : Nat}
    (hik : (i, k) ∈ rel) (hkj : (k, j) ∈ rel) : (i, j) ∈ fwStep i k rel j := by
  by_cases hij : (i, j) ∈ rel
  · exact mem_fwStep_of_mem hij
  · unfold fwStep
    rw [if_pos]
    · exact List.mem_append_right _ (List.mem_singleton.mpr rfl)
    · simp only [Bool.and_eq_true, Bool.not_eq_true', listSearch_iff, listSearch_false_iff]
      exact ⟨⟨hik, hkj⟩, hij⟩

lemma fwLoopJ_adds {i k j : Nat} :
    ∀ {js : List Nat} {rel : List (Nat × Nat)}, j ∈ js → (i, k) ∈ rel → (k, j) ∈ rel →
      (i, j) ∈ js.foldl (fwStep i k) rel := by
  intro js
  induction js with
  | nil => exact fun h _ _ => absurd h (List.not_mem_nil _)
  | cons a as ih =>
    intro rel hj hik hkj
    rw [List.foldl_cons]
    rcases List.mem_cons.mp hj with rfl | hj
    · exact foldlPres (P := fun r => (i, j) ∈ r) (fun b x hb => mem_fwStep_of_mem hb) _ _
        (mem_fwStep_self hik hkj)
    · exact ih hj (mem_fwStep_of_mem hik) (mem_fwStep_of_mem hkj)

lemma fwLoopI_adds {l k i j : Nat} (hj : j < l) :
    ∀ {is : List Nat} {rel : List (Nat × Nat)}, i ∈ is → (i, k) ∈ rel → (k, j) ∈ rel →
      (i, j) ∈ is.foldl (fun r x => fwLoopJ l x k r) rel := by
  intro is
  induction is with
  | nil => exact fun h _ _ => absurd h (List.not_mem_nil _)
  | cons a as ih =>
    intro rel hi hik hkj
    rw [List.foldl_cons]
    rcases List.mem_cons.mp hi with rfl | hi
    · refine foldlPres (P := fun r => (i, j) ∈ r) (fun b x hb => mem_fwLoopJ_of_mem hb) _ _ ?_
      unfold fwLoopJ
      exact fwLoopJ_adds (List.mem_range.mpr hj) hik hkj
    · exact ih hi (mem_fwLoopJ_of_mem hik) (mem_fwLoopJ_of_mem hkj)

lemma chainBdd_split {rel : List (Nat × Nat)} {b i j : Nat}
    (h : ChainBdd rel (b + 1) i j) :
    ChainBdd rel b i j ∨ (ChainBdd rel b i b ∧ ChainBdd rel b b j) := by
  induction h with
  | base hm => exact Or.inl (.base hm)
  | step hm hk _ ih =>
    rcases Nat.lt_succ_iff_lt_or_eq.mp hk with hk' | rfl
    · rcases ih with h1 | ⟨h1, h2⟩
      · exact Or.inl (.step hm hk' h1)
      · exact Or.inr ⟨.step hm hk' h1, h2⟩
    · rcases ih with h1 | ⟨_, h2⟩
      · exact Or.inr ⟨.base hm, h1⟩
      · exact Or.inr ⟨.base hm, h2⟩

lemma fwRange_complete {l : Nat} :
    ∀ (n : Nat) (rel : List (Nat × Nat)), n ≤ l → ∀ i j, i < l → j < l →
      ChainBdd rel n i j → (i, j) ∈ (List.range n).foldl (fun r x => fwLoopI l x r) rel := by
  intro n
  induction n with
  | zero =>
    intro rel _ i j _ _ h
    cases h with
    | base hm => simpa using hm
    | step _ hk _ => exact absurd hk (Nat.not_lt_zero _)
  | succ n ih =>
    intro rel hn i j hi hj h
    rw [List.range_succ, List.foldl_append, List.foldl_cons, List.foldl_nil]
    rcases chainBdd_split h with h' | ⟨h1, h2⟩
    · exact mem_fwLoopI_of_mem (ih rel (Nat.le_of_succ_le hn) i j hi hj h')
    · have hnl : n < l := Nat.lt_of_succ_le hn
      have m1 := ih rel (Nat.le_of_succ_le hn) i n hi hnl h1
      have m2 := ih rel (Nat.le_of_succ_le hn) n j hnl hj h2
      unfold fwLoopI
      exact fwLoopI_adds hj (List.mem_range.mpr hi) m1 m2

lemma chain_endpoints {rel : List (Nat × Nat)} {l i j : Nat}
    (hwf : BoundedPairs rel l) (h : Chain rel i j) : i < l ∧ j < l := by
  induction h with
  | base hm => exact hwf _ hm
  | step hm _ ih => exact ⟨(hwf _ hm).1, ih.2⟩

lemma chain_to_bdd {rel : List (Nat × Nat)} {l i j : Nat}
    (hwf : BoundedPairs rel l) (h : Chain rel i j) : ChainBdd rel l i j := by
  induction h with
  | base hm => exact .base hm
  | step hm _ ih => exact .step hm (hwf _ hm).2 ih

lemma fwAll_complete {rel : List (Nat × Nat)} {l i j : Nat}
    (hwf : BoundedPairs rel l) (h : Chain rel i j) : (i, j) ∈ fwAll l rel := by
  obtain ⟨hi, hj⟩ := chain_endpoints hwf h
  unfold fwAll
  exact fwRange_complete l rel (Nat.le_refl l) i j hi hj (chain_to_bdd hwf h)

lemma chain_trans {rel : List (Nat × Nat)} {i k j : Nat}
    (h1 : Chain rel i k) (h2 : Chain rel k j) : Chain rel i j := by
  induction h1 with
  | base hm => exact .step hm h2
  | step hm _ ih => exact .step hm (ih h2)

lemma fwStep_sound {rel0 rel : List (Nat × Nat)} {i k j : Nat}
    (hr : ∀ p ∈ rel, Chain rel0 p.1 p.2) :
    ∀ p ∈ fwStep i k rel j, Chain rel0 p.1 p.2 := by
  intro p hp
  unfold fwStep at hp
  by_cases hcond :
      (listSearch rel (i, k) && listSearch rel (k, j) && !listSearch rel (i, j)) = true
  · rw [if_pos hcond] at hp
    rcases List.mem_append.mp hp with hp | hp
    · exact hr _ hp
    · have hpij := List.mem_singleton.mp hp
      subst hpij
      simp only [Bool.and_eq_true, listSearch_iff] at hcond
      show Chain rel0 i j
      exact chain_trans (hr (i, k) hcond.1.1) (hr (k, j) hcond.1.2)
  · rw [if_neg hcond] at hp
    exact hr _ hp

lemma fwLoopJ_sound {rel0 rel : List (Nat × Nat)} {l i k : Nat}
    (hr : ∀ p ∈ rel, Chain rel0 p.1 p.2) :
    ∀ p ∈ fwLoopJ l i k rel, Chain rel0 p.1 p.2 := by
  unfold fwLoopJ
  exact foldlPres (P := fun (r : List (Nat × Nat)) => ∀ p ∈ r, Chain rel0 p.1 p.2)
    (fun b a hb => fwStep_sound hb) _ _ hr

lemma fwLoopI_sound {rel0 rel : List (Nat × Nat)} {l k : Nat}
    (hr : ∀ p ∈ rel, Chain rel0 p.1 p.2) :
    ∀ p ∈ fwLoopI l k rel, Chain rel0 p.1 p.2 := by
  unfold fwLoopI
  exact foldlPres (P := fun (r : List (Nat × Nat)) => ∀ p ∈ r, Chain rel0 p.1 p.2)
    (fun b a hb => fwLoopJ_sound hb) _ _ hr

lemma fwAll_sound {rel : List (Nat × Nat)} {l : Nat} :
    ∀ p ∈ fwAll l rel, Chain rel p.1 p.2 := by
  unfold fwAll
  exact foldlPres (P := fun (r : List (Nat × Nat)) => ∀ p ∈ r, Chain rel p.1 p.2)
    (fun b a hb => fwLoopI_sound hb) _ _ (fun p hp => .base hp)

lemma fwAll_mem_iff {rel : List (Nat × Nat)} {l i j : Nat}
    (hwf : BoundedPairs rel l) : (i, j) ∈ fwAll l rel ↔ Chain rel i j :=
  ⟨fun h => fwAll_sound _ h, fun h => fwAll_complete hwf h⟩

end MPL

namespace MPL

lemma truthEval_nec (m : Model) (s : Nat) (a : Wff) :
    truthEval m s (.nec a) = ((usedPreordersOfList m s).all fun w1 =>
      (usedRelationsOfList m w1).all fun w2 => truthEval m w2 a) := by
  rw [truthEval]

lemma truthEval_poss (m : Model) (s : Nat) (a : Wff) :
    truthEval m s (.poss a) =
      (if !(m.rules.getD 2 false) then
        (usedPreordersOfList m s).all fun w1 =>
          (usedRelationsOfList m w1).any fun w2 => truthEval m w2 a
      else (usedRelationsOfList m s).any fun w1 => truthEval m w1 a) := by
  rw [truthEval]

lemma mem_usedPreordersOfList (m : Model) (s w : Nat) :
    w ∈ usedPreordersOfList m s ↔ (s, w) ∈ m.preordersToEval := by
  unfold usedPreordersOfList
  exact mem_pairTargets _ _ _

lemma mem_usedRelationsOfList (m : Model) (s w : Nat) :
    w ∈ usedRelationsOfList m s ↔ (s, w) ∈ m.relationsToEval := by
  unfold usedRelationsOfList
  exact mem_pairTargets _ _ _

/-- C1 (amended): with rule flag 2 unset, `Poss(A)` is true at `s` iff for
EVERY `w1` with `(s,w1)` in the evaluation preorder snapshot there is some
`w2` with `(w1,w2)` in the evaluation relation snapshot at which `A` is
true; with flag 2 set, iff some `w1` directly related to `s` by the
evaluation relation snapshot has `A` true. -/
theorem poss_flag_semantics (m : Model) (s : Nat) (a : Wff)
    (_hlive : (m.state? s).isSome = true) :
    (m.rules.getD 2 false = false →
      (truthEval m s (.poss a) = true ↔
        ∀ w1, (s, w1) ∈ m.preordersToEval →
          ∃ w2, (w1, w2) ∈ m.relationsToEval ∧ truthEval m w2 a = true)) ∧
    (m.rules.getD 2 false = true →
      (truthEval m s (.poss a) = true ↔
        ∃ w1, (s, w1) ∈ m.relationsToEval ∧ truthEval m w1 a = true)) := by
  constructor
  · intro hflag
    rw [truthEval_poss, hflag]
    simp only [Bool.not_false, if_true, List.all_eq_true, List.any_eq_true,
      mem_usedPreordersOfList, mem_usedRelationsOfList]
  · intro hflag
    rw [truthEval_poss, hflag]
    simp only [Bool.not_true, Bool.false_eq_true, if_false, List.any_eq_true,
      mem_usedRelationsOfList]

/-- C1 (counterexample): on the reachable model `C1M` (one live state, no
snapshot pairs, flag 2 unset) the evaluator returns true for `<>p`, yet the
spec's existential preorder-then-relation reading is false. -/
theorem poss_spec_counterexample :
    truth C1M 0 (.poss (.prop "p")) = some true ∧
    specPossExists C1M 0 (.prop "p") = false ∧
    C1M.rules.getD 2 false = false := by
  have hflag : C1M.rules.getD 2 false = false := by decide
  have hused : usedPreordersOfList C1M 0 = [] := by decide
  refine ⟨?_, ?_, hflag⟩
  · have hlive : (C1M.getStates.getD 0 none).isSome = true := by decide
    simp only [truth, hlive, if_true]
    rw [truthEval_poss, hflag, hused]
    simp
  · rw [specPossExists, hused]
    rfl

/-- Witness for the amended C1 theorem at the concrete model `C1M`. -/
theorem poss_flag_semantics_witness :
    truthEval C1M 0 (.poss (.prop "p")) = true :=
  ((poss_flag_semantics C1M 0 (.prop "p") (by decide)).1 (by decide)).mpr (by
    intro w1 hw1
    rw [(by decide : C1M.preordersToEval = ([] : List (Nat × Nat)))] at hw1
    exact absurd hw1 (List.not_mem_nil _))

lemma utc_preordersToEval (m : Model) (t : String) :
    (m.updateTransitiveClosure t).preordersToEval = m.preordersToEval := by
  unfold Model.updateTransitiveClosure
  dsimp only
  split <;> rfl

lemma addTransition_preordersToEval (m : Model) (s t : Nat) (ty : String) :
    (m.addTransition s t ty).2.preordersToEval = m.preordersToEval := by
  unfold Model.addTransition
  cases hs : m.state? s with
  | none => rfl
  | some sSt =>
    cases ht : m.state? t with
    | none => rfl
    | some tSt =>
      dsimp only
      split
      · rfl
      · rw [utc_preordersToEval]
        repeat' split
        all_goals rfl

lemma removeTransition_preordersToEval (m : Model) (s t : Nat) (ty : String) :
    (m.removeTransition s t ty).preordersToEval = m.preordersToEval := by
  unfold Model.removeTransition
  split
  · rfl
  · split
    · rw [utc_preordersToEval]
    · rfl

lemma removeState_preordersToEval (m : Model) (s : Nat) :
    (m.removeState s).preordersToEval = m.preordersToEval := by
  unfold Model.removeState
  split <;> rfl

lemma editState_preordersToEval (m : Model) (s : Nat) (a : List (String × Bool)) :
    (m.editState s a).2.preordersToEval = m.preordersToEval := by
  unfold Model.editState
  cases hs : m.state? s with
  | none => rfl
  | some st =>
    dsimp only
    split
    · rfl
    · split <;> rfl

lemma foldlPresEq {α : Type} {f : Model → α → Model}
    (hf : ∀ mm a, (f mm a).preordersToEval = mm.preordersToEval) :
    ∀ (xs : List α) (mm : Model), (xs.foldl f mm).preordersToEval = mm.preordersToEval := by
  intro xs
  induction xs with
  | nil => intro mm; rfl
  | cons a as ih => intro mm; rw [List.foldl_cons, ih, hf]

lemma load_preordersToEval (m : Model) (str : String) :
    (m.loadFromModelString str).preordersToEval = m.preordersToEval := by
  unfold Model.loadFromModelString
  split
  · rfl
  · dsimp only
    refine (foldlPresEq ?_ _ _).trans ((foldlPresEq ?_ _ _).trans rfl)
    · intro mm a
      dsimp only
      split
      · rfl
      · exact foldlPresEq (fun mm1 a1 => addTransition_preordersToEval mm1 a a1 "relations") _ _
    · intro mm a
      dsimp only
      split
      · exact addTransition_preordersToEval _ _ _ _
      · exact (foldlPresEq (fun mm1 a1 => addTransition_preordersToEval mm1 a a1 "preorders") _ _).trans
          (addTransition_preordersToEval _ _ _ _)

lemma built_preordersToEval {m : Model} (h : Built m) : m.preordersToEval = [] := by
  induction h with
  | init => rfl
  | addState m a _ ih => exact ih
  | addTransition m s t ty _ ih => rw [addTransition_preordersToEval]; exact ih
  | removeTransition m s t ty _ ih => rw [removeTransition_preordersToEval]; exact ih
  | removeState m s _ ih => rw [removeState_preordersToEval]; exact ih
  | editState m s a _ ih => rw [editState_preordersToEval]; exact ih
  | updateRule m i _ ih => exact ih
  | load m str _ ih => rw [load_preordersToEval]; exact ih

/-- C7: the public `truth` runs no preparation step, and `Nec`/`Poss` (flag
2 unset) read only the snapshot produced by the last `_pretruth` call — so
on any model built by the mutation interface without `_pretruth`, both
return true vacuously at every live state, whatever the edges are. -/
theorem truth_without_pretruth_vacuous (m : Model) (A : Wff) (s : Nat)
    (hb : Built m) (hs : (m.getStates.getD s none).isSome = true) :
    truth m s (.nec A) = some true ∧
    (m.rules.getD 2 false = false → truth m s (.poss A) = some true) := by
  have hnil : m.preordersToEval = [] := built_preordersToEval hb
  have hused : usedPreordersOfList m s = [] := by
    rw [usedPreordersOfList, hnil]; rfl
  constructor
  · simp only [truth, hs, if_true]
    rw [truthEval_nec, hused]
    rfl
  · intro hflag
    simp only [truth, hs, if_true]
    rw [truthEval_poss, hflag, hused]
    rfl

/-- Witness for C7 on a one-state model built without `_pretruth`. -/
theorem truth_without_pretruth_vacuous_witness :
    truth C7M 0 (.nec (.prop "p")) = some true ∧
    truth C7M 0 (.poss (.prop "p")) = some true := by
  have hb : Built C7M := Built.addState Model.init [] Built.init
  have h := truth_without_pretruth_vacuous C7M (.prop "p") 0 hb (by decide)
  exact ⟨h.1, h.2 (by decide)⟩

/-- C8: after `updateTransitiveClosure("preorders")`, `transPreorders`
contains `(i, j)` whenever a nonempty chain of current preorder pairs leads
from `i` to `j` (all endpoints lying in the state index space). -/
theorem closure_contains_chains (m : Model)
    (hwf : BoundedPairs m.preorders m.states.length)
    {i j : Nat} (hchain : Chain m.preorders i j) :
    (i, j) ∈ (m.updateTransitiveClosure "preorders").transPreorders := by
  have hup : (m.updateTransitiveClosure "preorders").transPreorders =
      fwAll m.states.length m.preorders := by
    unfold Model.updateTransitiveClosure
    rfl
  rw [hup]
  exact fwAll_complete hwf hchain

/-- Witness for C8: the spec's own closure example — preorder edges
`(0,1),(1,2)` plus reflexive self-loops yield `(0,2)` in the recomputed
closure. -/
theorem closure_contains_chains_witness :
    BoundedPairs C8M.preorders C8M.states.length ∧
    (0, 2) ∈ (C8M.updateTransitiveClosure "preorders").transPreorders := by
  refine ⟨by unfold BoundedPairs; decide, ?_⟩
  exact closure_contains_chains C8M (by unfold BoundedPairs; decide)
    (Chain.step (show ((0 : Nat), (1 : Nat)) ∈ C8M.preorders by decide)
      (Chain.base (show ((1 : Nat), (2 : Nat)) ∈ C8M.preorders by decide)))

end MPL

namespace MPL

/-- C2 (failing input evaluated): exporting the one-state model where `p`
and `q` are both true produces `Ap,qP0R;`, and re-importing that string
restores an assignment containing only `p` — the variable `q` does not
survive the round trip. -/
theorem modelString_roundtrip_drops_variable :
    C2M.getModelString = "Ap,qP0R;" ∧
    C2M.valuation "q" 0 = true ∧
    C2M2.valuation "q" 0 = false ∧
    C2M2.state? 0 = some { assignment := ["p"] } :=
  ⟨by decide, by decide, by decide, by decide⟩

lemma utc_states (m : Model) (t : String) :
    (m.updateTransitiveClosure t).states = m.states := by
  unfold Model.updateTransitiveClosure
  dsimp only
  split <;> rfl

lemma utc_rules (m : Model) (t : String) :
    (m.updateTransitiveClosure t).rules = m.rules := by
  unfold Model.updateTransitiveClosure
  dsimp only
  split <;> rfl

set_option maxRecDepth 4000 in
/-- C3 (counterexample): on the reachable model `C3M` — built by three
`addState` calls (inserting only the self-loops) and `addTransition` of
`(0,1)` and `(1,2)` — `getPreordersOf(0)` reports the closure-derived
target `2`, which no call ever inserted; and recomputing the closure on
`C3prev` changes the primary preorder list itself. -/
theorem closure_mutates_primary_counterexample :
    ((C3M.getPreordersOf 0).getD []).contains 2 = true ∧
    (C3prev.updateTransitiveClosure "preorders").preorders ≠ C3prev.preorders :=
  ⟨by decide, by decide⟩

/-- C3 (amended): `updateTransitiveClosure("preorders")` replaces the
primary preorder list by its Floyd-Warshall closure and points the derived
field at the same list; the other edge sets are untouched, and afterwards
`getPreordersOf(i)` reports exactly the targets chain-reachable from `i`
through the old preorder pairs — closure-derived pairs included. -/
theorem closure_merge_characterization (m : Model)
    (hwf : BoundedPairs m.preorders m.states.length) :
    (m.updateTransitiveClosure "preorders").preorders =
      fwAll m.states.length m.preorders ∧
    (m.updateTransitiveClosure "preorders").transPreorders =
      (m.updateTransitiveClosure "preorders").preorders ∧
    (m.updateTransitiveClosure "preorders").relations = m.relations ∧
    (m.updateTransitiveClosure "preorders").transRelations = m.transRelations ∧
    (∀ i j, (i, j) ∈ (m.updateTransitiveClosure "preorders").preorders ↔
      Chain m.preorders i j) ∧
    (∀ i j, (m.state? i).isSome = true →
      ((j ∈ ((m.updateTransitiveClosure "preorders").getPreordersOf i).getD []) ↔
        Chain m.preorders i j)) := by
  have h1 : (m.updateTransitiveClosure "preorders").preorders =
      fwAll m.states.length m.preorders := by
    unfold Model.updateTransitiveClosure
    rfl
  have hmem : ∀ i j, (i, j) ∈ (m.updateTransitiveClosure "preorders").preorders ↔
      Chain m.preorders i j := by
    intro i j
    rw [h1]
    exact fwAll_mem_iff hwf
  refine ⟨h1, by unfold Model.updateTransitiveClosure; rfl,
    by unfold Model.updateTransitiveClosure; rfl,
    by unfold Model.updateTransitiveClosure; rfl, hmem, ?_⟩
  intro i j hi
  have hstate : (m.updateTransitiveClosure "preorders").state? i = m.state? i := by
    unfold Model.state?
    rw [utc_states]
  rw [Model.getPreordersOf, hstate]
  rcases hsi : m.state? i with _ | st
  · rw [hsi] at hi
    exact absurd hi (by simp)
  · simp only [Option.isNone_some, Bool.false_eq_true, if_false, Option.getD_some]
    rw [preordersOfList, mem_pairTargets]
    exact hmem i j

/-- C10 (counterexample): `addState` has no return statement — the call
evaluates to `undefined` (`none`), not to the new state's index `0`. -/
theorem addState_no_return_counterexample :
    (Model.init.addState [("p", true)]).1 = none ∧
    (Model.init.addState [("p", true)]).1 ≠ some 0 ∧
    (Model.init.addState [("p", true)]).2.states = [some { assignment := ["p"] }] :=
  ⟨rfl, by decide, by decide⟩

/-- C10 (amended): `addState(assignment)` returns no value; it appends a
state at index equal to the previous slot count whose stored assignment
contains exactly the variables mapped to `true` in the argument, and appends
the reflexive preorder self-loop for that index; the relation set is
untouched. -/
theorem addState_effects (m : Model) (a : List (String × Bool)) :
    (m.addState a).1 = none ∧
    (m.addState a).2.states.length = m.states.length + 1 ∧
    (m.addState a).2.state? m.states.length =
      some { assignment := (a.filter fun kv => kv.2 == true).map fun kv => kv.1 } ∧
    (∀ p : String,
      (p ∈ (a.filter fun kv => kv.2 == true).map fun kv => kv.1) ↔ (p, true) ∈ a) ∧
    (m.addState a).2.preorders = m.preorders ++ [(m.states.length, m.states.length)] ∧
    (m.addState a).2.relations = m.relations := by
  have hgetD : ∀ (l : List (Option StateRec)) (x : Option StateRec),
      (l ++ [x]).getD l.length none = x := by
    intro l x
    induction l with
    | nil => rfl
    | cons h t ih =>
      simp only [List.cons_append, List.length_cons, List.getD_cons_succ]
      exact ih
  refine ⟨rfl, by simp [Model.addState], ?_, ?_, rfl, rfl⟩
  · show ((m.states ++ [_]).getD m.states.length none) = _
    rw [hgetD]
  · intro p
    simp only [List.mem_map, List.mem_filter, beq_iff_eq]
    constructor
    · rintro ⟨⟨p1, b⟩, ⟨hm, hb⟩, hp⟩
      simp only at hb hp
      subst hb; subst hp
      exact hm
    · intro h
      exact ⟨(p, true), ⟨h, rfl⟩, rfl⟩

end MPL

namespace MPL

lemma ite_pair_snd {c : Prop} [Decidable c] {α β : Type} (a b : α) (x : β) :
    (if c then (a, x) else (b, x)).2 = x := by
  split <;> rfl

lemma pretruth_shape (r cf : Bool) (s : String)
    (hs : s = if r && !cf then "Confluence check failed" else "") :
    (s = "Confluence check failed" ↔ (r = true ∧ cf = false)) ∧
    (s = "" ↔ (r = false ∨ cf = true)) := by
  subst hs
  cases r <;> cases cf <;> decide

/-- C6: the preparation step returns the diagnostic string exactly when rule
flag 1 is set and forward confluence fails on the prepared model (the one
whose closures it just recomputed), and returns the empty string — letting
evaluation proceed — exactly otherwise. -/
theorem pretruth_diagnostic_iff (m : Model) :
    (m.pretruth.1 = "Confluence check failed" ↔
      (m.rules.getD 1 false = true ∧ m.pretruth.2.checkForwardConfluence = false)) ∧
    (m.pretruth.1 = "" ↔
      (m.rules.getD 1 false = false ∨ m.pretruth.2.checkForwardConfluence = true)) := by
  refine pretruth_shape (m.rules.getD 1 false) (m.pretruth.2.checkForwardConfluence)
    m.pretruth.1 ?_
  unfold Model.pretruth
  dsimp only
  rw [utc_rules, utc_rules]
  split <;> split <;> dsimp only

/-- C9 (counterexample): adding a relation edge leaves `transRelations`
stale (empty while the closure of the relation set is not), and removing a
state leaves `transPreorders` holding pairs that name the removed state. -/
theorem closure_freshness_counterexample :
    C9Ma.relations = [(0, 0)] ∧
    C9Ma.transRelations = [] ∧
    C9Mb.states.getD 1 none = none ∧
    (1, 1) ∈ C9Mb.transPreorders ∧
    C9Mb.preorders = [(0, 0)] :=
  ⟨by decide, by decide, by decide, by decide, by decide⟩

lemma utc_pre_fields (m : Model) :
    (m.updateTransitiveClosure "preorders").preorders = fwAll m.states.length m.preorders ∧
    (m.updateTransitiveClosure "preorders").transPreorders =
      fwAll m.states.length m.preorders ∧
    (m.updateTransitiveClosure "preorders").relations = m.relations ∧
    (m.updateTransitiveClosure "preorders").transRelations = m.transRelations ∧
    (m.updateTransitiveClosure "preorders").states = m.states := by
  unfold Model.updateTransitiveClosure
  exact ⟨rfl, rfl, rfl, rfl, rfl⟩

lemma utc_rel_fields (m : Model) :
    (m.updateTransitiveClosure "relations").relations = fwAll m.states.length m.relations ∧
    (m.updateTransitiveClosure "relations").transRelations =
      fwAll m.states.length m.relations ∧
    (m.updateTransitiveClosure "relations").preorders = m.preorders ∧
    (m.updateTransitiveClosure "relations").transPreorders = m.transPreorders ∧
    (m.updateTransitiveClosure "relations").states = m.states := by
  unfold Model.updateTransitiveClosure
  exact ⟨rfl, rfl, rfl, rfl, rfl⟩

/-- C9 (amended): only `addTransition` (on success, either kind) and
`removeTransition` of kind `preorders` rerun the preorder closure — and they
merge it into the primary preorder list, so the two coincide afterwards;
`removeTransition` of kind `relations` and `removeState` recompute nothing,
leaving the derived closures exactly as they were (possibly stale); the
preparation step reruns both closures from the current primary sets. -/
theorem closure_refresh_effects (m : Model) :
    (∀ s t ty, (m.addTransition s t ty).1 = true →
      (m.addTransition s t ty).2.transPreorders = (m.addTransition s t ty).2.preorders) ∧
    (∀ s t, (m.state? s).isSome = true →
      (m.removeTransition s t "preorders").transPreorders =
        fwAll m.states.length (listRemove m.preorders (s, t)) ∧
      (m.removeTransition s t "preorders").preorders =
        (m.removeTransition s t "preorders").transPreorders) ∧
    (∀ s, (m.removeState s).transPreorders = m.transPreorders ∧
      (m.removeState s).transRelations = m.transRelations) ∧
    (∀ s t, (m.removeTransition s t "relations").transRelations = m.transRelations ∧
      (m.removeTransition s t "relations").transPreorders = m.transPreorders) ∧
    (m.pretruth.2.transPreorders = fwAll m.states.length m.preorders ∧
      m.pretruth.2.transRelations = fwAll m.states.length m.relations) := by
  refine ⟨?_, ?_, ?_, ?_, ?_⟩
  · intro s t ty h
    unfold Model.addTransition at h ⊢
    cases hs : m.state? s with
    | none => rw [hs] at h; simp at h
    | some sSt =>
      cases ht : m.state? t with
      | none => rw [hs, ht] at h; simp at h
      | some tSt =>
        rw [hs, ht] at h
        dsimp only at h ⊢
        split at h
        · simp at h
        · rename_i hcond
          rw [if_neg hcond]
          exact ((utc_pre_fields _).2.1).trans ((utc_pre_fields _).1).symm
  · intro s t hs
    unfold Model.removeTransition
    rw [if_neg (by rw [Option.isNone_iff_eq_none]; intro hn; rw [hn] at hs; simp at hs)]
    rw [if_pos (by decide)]
    constructor
    · exact (utc_pre_fields _).2.1
    · exact ((utc_pre_fields _).1).trans ((utc_pre_fields _).2.1).symm
  · intro s
    unfold Model.removeState
    split <;> exact ⟨rfl, rfl⟩
  · intro s t
    unfold Model.removeTransition
    split
    · exact ⟨rfl, rfl⟩
    · rw [if_neg (by decide)]
      exact ⟨rfl, rfl⟩
  · unfold Model.pretruth
    dsimp only
    rw [ite_pair_snd]
    refine ⟨?_, ?_⟩
    · exact ((utc_rel_fields (m.updateTransitiveClosure "preorders")).2.2.2.1).trans
        (utc_pre_fields m).2.1
    · rw [(utc_rel_fields (m.updateTransitiveClosure "preorders")).2.1,
        (utc_pre_fields m).2.2.1, (utc_pre_fields m).2.2.2.2]

/-- Witness for the amended C9 theorem at concrete inputs. -/
theorem closure_refresh_effects_witness :
    ((C7M.addTransition 0 0 "relations").1 = true →
      (C7M.addTransition 0 0 "relations").2.transPreorders =
        (C7M.addTransition 0 0 "relations").2.preorders) ∧
    ((C7M.state? 0).isSome = true →
      (C7M.removeTransition 0 0 "preorders").transPreorders =
        fwAll C7M.states.length (listRemove C7M.preorders (0, 0))) := by
  constructor
  · exact fun h => (closure_refresh_effects C7M).1 0 0 "relations" h
  · exact fun h => ((closure_refresh_effects C7M).2.1 0 0 h).1

end MPL

namespace MPL

lemma all_eq_false_of_counterexample {α : Type} {l : List α} {p : α → Bool} {x : α}
    (hx : x ∈ l) (hp : p x = false) : l.all p = false := by
  rw [← Bool.not_eq_true]
  intro hall
  rw [List.all_eq_true] at hall
  rw [hall x hx] at hp
  exact Bool.noConfusion hp

/-- C4: a mutation that would break monotonicity is rejected wholly —
`addTransition` of a preorder edge returns `false` and leaves the model
untouched when some variable true at the source is absent at the target,
returns `true` without growing any edge set when the edge is already present
(given the closure-stable preorder list every program-reachable model has),
and `editState` returns `false` and leaves the model untouched when the
update would set a variable true that is false at a preorder successor or
set one false that is true at a preorder predecessor (the liveness
hypothesis mirrors the source, whose checks would throw on an edge into a
dead slot instead of returning). -/
theorem monotonicity_rejection_atomic (m : Model) :
    (∀ s t sSt tSt, m.state? s = some sSt → m.state? t = some tSt →
      (∃ p ∈ sSt.assignment, tSt.assignment.contains p = false) →
      m.addTransition s t "preorders" = (false, m)) ∧
    (∀ s t sSt tSt, m.state? s = some sSt → m.state? t = some tSt →
      (sSt.assignment.all fun e => tSt.assignment.contains e) = true →
      listSearch m.preorders (s, t) = true →
      fwAll m.states.length m.preorders = m.preorders →
      (m.addTransition s t "preorders").1 = true ∧
        (m.addTransition s t "preorders").2.preorders = m.preorders ∧
        (m.addTransition s t "preorders").2.relations = m.relations) ∧
    (∀ state a st,
      (∀ e ∈ m.preorders, (m.state? e.1).isSome = true ∧ (m.state? e.2).isSome = true) →
      m.state? state = some st →
      ((∃ kv ∈ a, kv.2 = true ∧
          ∃ f ∈ preordersOfList m state, f ≠ state ∧ m.valuation kv.1 f = false) ∨
        (∃ kv ∈ a, kv.2 = false ∧
          ∃ f ∈ pastPreordersOfList m state, f ≠ state ∧ m.valuation kv.1 f = true)) →
      m.editState state a = (false, m)) := by
  refine ⟨?_, ?_, ?_⟩
  · rintro s t sSt tSt hs ht ⟨p, hp, hc⟩
    unfold Model.addTransition
    rw [hs, ht]
    dsimp only
    rw [if_pos]
    rw [all_eq_false_of_counterexample hp hc]
    rfl
  · intro s t sSt tSt hs ht hall hpresent hstable
    unfold Model.addTransition
    rw [hs, ht]
    dsimp only
    rw [if_neg (by rw [hall]; decide)]
    have hps : ("preorders" == "preorders") = true := rfl
    rw [if_neg (by rw [if_pos hps, hpresent]; decide)]
    refine ⟨rfl, ?_, rfl⟩
    show (m.updateTransitiveClosure "preorders").preorders = m.preorders
    rw [(utc_pre_fields m).1, hstable]
  · intro state a st _hlive hst hviol
    unfold Model.editState
    rw [hst]
    dsimp only
    by_cases h1 : (a.all fun kv =>
        if !kv.2 then true
        else (preordersOfList m state).all fun f => f == state || m.valuation kv.1 f) = true
    · rw [if_neg (by rw [h1]; decide)]
      rcases hviol with ⟨kv, hkv, hkvt, f, hf, hfne, hfval⟩ | ⟨kv, hkv, hkvf, f, hf, hfne, hfval⟩
      · exfalso
        rw [List.all_eq_true] at h1
        have h2 := h1 kv hkv
        rw [hkvt] at h2
        simp only [Bool.not_true, Bool.false_eq_true, if_false, List.all_eq_true] at h2
        have h3 := h2 f hf
        rw [hfval, Bool.or_false] at h3
        exact hfne (by simpa using h3)
      · rw [if_pos]
        have hfail : (a.all fun kv =>
            if kv.2 then true
            else (pastPreordersOfList m state).all fun f =>
              f == state || !(m.valuation kv.1 f)) = false := by
          refine all_eq_false_of_counterexample hkv ?_
          rw [hkvf]
          simp only [Bool.false_eq_true, if_false]
          refine all_eq_false_of_counterexample hf ?_
          rw [hfval]
          simp only [Bool.not_true, Bool.or_false]
          exact beq_eq_false_iff_ne.mpr hfne
        rw [hfail]
        decide
    · rw [if_pos]
      rw [Bool.not_eq_true] at h1
      rw [h1]
      decide

/-- Witness for C4 on the concrete model `C4M`. -/
theorem monotonicity_rejection_atomic_witness :
    C4M.addTransition 1 0 "preorders" = (false, C4M) ∧
    (C4M.addTransition 0 1 "preorders").1 = true ∧
    (C4M.addTransition 0 1 "preorders").2.preorders = C4M.preorders ∧
    C4M.editState 0 [("r", true)] = (false, C4M) ∧
    C4M.editState 1 [("p", false)] = (false, C4M) := by
  obtain ⟨h1, h2, h3⟩ := monotonicity_rejection_atomic C4M
  refine ⟨?_, ?_, ?_, ?_, ?_⟩
  · exact h1 1 0 { assignment := ["p", "q"] } { assignment := ["p"] } (by decide) (by decide)
      ⟨"q", by decide, by decide⟩
  · exact (h2 0 1 { assignment := ["p"] } { assignment := ["p", "q"] } (by decide) (by decide)
      (by decide) (by decide) (by decide)).1
  · exact (h2 0 1 { assignment := ["p"] } { assignment := ["p", "q"] } (by decide) (by decide)
      (by decide) (by decide) (by decide)).2.1
  · exact h3 0 [("r", true)] { assignment := ["p"] } (by decide) (by decide)
      (Or.inl ⟨("r", true), by decide, rfl, 1, by decide, by decide, by decide⟩)
  · exact h3 1 [("p", false)] { assignment := ["p", "q"] } (by decide) (by decide)
      (Or.inr ⟨("p", false), by decide, rfl, 0, by decide, by decide, by decide⟩)

end MPL

namespace MPL

/-- Witness for the amended C3 theorem at the concrete model `C3prev`. -/
theorem closure_merge_characterization_witness :
    (C3prev.updateTransitiveClosure "preorders").preorders =
      fwAll C3prev.states.length C3prev.preorders ∧
    ((0, 2) ∈ (C3prev.updateTransitiveClosure "preorders").preorders ↔
      Chain C3prev.preorders 0 2) := by
  obtain ⟨h1, _, _, _, hmem, _⟩ :=
    closure_merge_characterization C3prev (by unfold BoundedPairs; decide)
  exact ⟨h1, hmem 0 2⟩

end MPL
